import Mathlib

/-! Verification of the karaoke caption engine and audio fallback logic of
`generate_short.py` (Reddit-YT-Short-Maker).  The Python source is
shallowly embedded: sentences are lists of characters, measured words are
records of text and pixel dimensions, durations and pixel positions are
rationals, and the external text measurer (moviepy's `TextClip`) and the
external text cleaner (`clean_text_for_tts`, a regex rewrite irrelevant to
the claims) are injected functions.  Pixel widths and heights reported by
the measurer are integers. -/

namespace RedditShort

/-- Python `sentence.split()` (no separator argument): splits on runs of
whitespace and never yields empty tokens.  `acc` holds the characters of
the token currently being read, in reverse. -/
def pySplitAux : List Char → List Char → List (List Char)
  | [], acc => if acc = [] then [] else [acc.reverse]
  | c :: cs, acc =>
    if c.isWhitespace then
      if acc = [] then pySplitAux cs [] else acc.reverse :: pySplitAux cs []
    else pySplitAux cs (c :: acc)

/-- `words = sentence.split()` in `create_karaoke_clip`. -/
def pySplit (s : List Char) : List (List Char) := pySplitAux s []

/-- `total_chars = sum(len(w) for w in words)`. -/
def totalChars (words : List (List Char)) : ℕ := (words.map List.length).sum

/-- `word_durations = [(len(w) / total_chars) * audio_duration for w in words]`. -/
def wordDurations (words : List (List Char)) (d : ℚ) : List ℚ :=
  words.map fun w => ((w.length : ℚ) / (totalChars words : ℚ)) * d

/-- One entry of `word_clips_data`: `{"text": w, "w": temp.w, "h": temp.h}`
with the `TextClip` pixel dimensions. -/
structure WordData where
  text : List Char
  w : ℤ
  h : ℤ
  deriving DecidableEq

/-- Rendered pixel width of a line, as computed in step 3 of the source:
`line_total_width = sum(w['w'] for w in line) + (len(line)-1)*20`. -/
def lineWidth (line : List WordData) : ℤ :=
  (line.map WordData.w).sum + ((line.length : ℤ) - 1) * 20

/-- Step 2 of `create_karaoke_clip`, the greedy word-wrap loop.  `cur` is
`current_line` and `cw` is `current_line_width`; the base case is the final
`if current_line: lines.append(current_line)`.  Note the wrap branch resets
`current_line_width` to `data['w']` with no spacing term, while the append
branch adds `data['w'] + 20`. -/
def layoutAux : List WordData → List WordData → ℤ → List (List WordData)
  | [], cur, _ => if cur = [] then [] else [cur]
  | d :: rest, cur, cw =>
    if cw + d.w > 900 then cur :: layoutAux rest [d] d.w
    else layoutAux rest (cur ++ [d]) (cw + d.w + 20)

/-- The full line layout: `lines` after the loop, starting from an empty
`current_line` of width `0`; `max_width = 900`. -/
def layout (ws : List WordData) : List (List WordData) := layoutAux ws [] 0

/-- `pages = [lines[i:i+2] for i in range(0, len(lines), 2)]`. -/
def chunk2 {α : Type} : List α → List (List α)
  | [] => []
  | [a] => [[a]]
  | a :: b :: rest => [a, b] :: chunk2 rest

/-- One rendered word of a frame: the `TextClip` text, its
`.with_position((curr_x, curr_y))` coordinates, and whether it carries the
active style (colored yellow instead of white; stroke identical). -/
structure PosWord where
  text : List Char
  x : ℚ
  y : ℚ
  active : Bool
  deriving DecidableEq

/-- One frame of the karaoke clip: its display duration
(`current_word_duration`), its rendered words, and the value of the
source's running counter `word_global_index` when the frame was built. -/
structure Frame where
  duration : ℚ
  words : List PosWord
  gidx : ℕ
  deriving DecidableEq

/-- Innermost loop (`for w_data in line`): each word is placed at the
running `curr_x`, which advances by `w_data['w'] + 20`; `idx` is the
running `temp_idx_counter` and `a` the active local index `i`. -/
def buildLine (a : ℕ) (y : ℚ) : List WordData → ℚ → ℕ → List PosWord
  | [], _, _ => []
  | d :: rest, x, idx =>
    ⟨d.text, x, y, idx == a⟩ :: buildLine a y rest (x + (d.w : ℚ) + 20) (idx + 1)

/-- Middle loop (`for line in page`): each line starts at
`curr_x = (1080 - line_total_width) / 2` and `curr_y` advances by
`line_height` after the line. -/
def buildLines (a : ℕ) (lh : ℤ) : List (List WordData) → ℚ → ℕ → List PosWord
  | [], _, _ => []
  | line :: rest, y, idx =>
    buildLine a y line (((1080 - lineWidth line : ℤ) : ℚ) / 2) idx
      ++ buildLines a lh rest (y + (lh : ℚ)) (idx + line.length)

/-- `line_height = max(w['h'] for line in page for w in line) + 15`.
Python's `max` faults on an empty page; that is unreachable for pages
produced from a nonempty word list, and the fold seeds with 0. -/
def lineHeight (page : List (List WordData)) : ℤ :=
  ((page.flatten.map WordData.h).foldl max 0) + 15

/-- `start_y = (1920 - total_block_height) / 2` with
`total_block_height = len(page) * line_height`. -/
def startY (page : List (List WordData)) : ℚ :=
  ((1920 : ℚ) - (page.length : ℚ) * (lineHeight page : ℚ)) / 2

/-- The rendered words of the frame of `page` whose active local index is
`a` (`temp_idx_counter` starts at 0). -/
def buildPage (page : List (List WordData)) (a : ℕ) : List PosWord :=
  buildLines a (lineHeight page) page (startY page) 0

/-- The frames emitted for one page: one per word of the page (local
indices from `enumerate(page_words_flat)`), each holding the duration
`word_durations[word_global_index]`; `off` is `word_global_index` on page
entry.  The source's list indexing faults out of range; `getD _ 0` is the
total stand-in (the counts always match). -/
def pageFrames (durs : List ℚ) (off : ℕ) (page : List (List WordData)) :
    List Frame :=
  (List.range page.flatten.length).map fun i =>
    ⟨durs.getD (off + i) 0, buildPage page i, off + i⟩

/-- Outer loop (`for page in pages`), threading `word_global_index`. -/
def framesAux (durs : List ℚ) : List (List (List WordData)) → ℕ → List Frame
  | [], _ => []
  | page :: rest, off =>
    pageFrames durs off page ++ framesAux durs rest (off + page.flatten.length)

def allFrames (durs : List ℚ) (pages : List (List (List WordData))) :
    List Frame :=
  framesAux durs pages 0

/-- `VideoEngine.create_karaoke_clip`, returning the timed frame sequence
that the source concatenates into one clip, or `none` when the sentence has
no words (`if not words: return None`).  `measure` abstracts the external
`TextClip` width/height measurement. -/
def create_karaoke_clip (measure : List Char → ℤ × ℤ)
    (sentence : List Char) (audio_duration : ℚ) : Option (List Frame) :=
  let words := pySplit sentence
  if words = [] then none
  else
    let durs := wordDurations words audio_duration
    let wcd := words.map fun t => WordData.mk t (measure t).1 (measure t).2
    some (allFrames durs (chunk2 (layout wcd)))

/-- The position-relevant content of a rendered word. -/
def stripPos (p : PosWord) : List Char × ℚ × ℚ := (p.text, p.x, p.y)

/-- Active-independent rendition of one line's positions. -/
def lineStrip (y : ℚ) : List WordData → ℚ → List (List Char × ℚ × ℚ)
  | [], _ => []
  | d :: rest, x => (d.text, x, y) :: lineStrip y rest (x + (d.w : ℚ) + 20)

/-- Active-independent rendition of a page's positions. -/
def linesStrip (lh : ℤ) : List (List WordData) → ℚ → List (List Char × ℚ × ℚ)
  | [], _ => []
  | line :: rest, y =>
    lineStrip y line (((1080 - lineWidth line : ℤ) : ℚ) / 2)
      ++ linesStrip lh rest (y + (lh : ℚ))

/-- The texts of the active-styled words of a frame's rendition. -/
def activeTexts (ps : List PosWord) : List (List Char) :=
  (ps.filter PosWord.active).map PosWord.text

/-- Specification helper: the sublist of `ts` kept when the word counter
starts at `i` and exactly counter value `a` is active. -/
def takeActive : List (List Char) → ℕ → ℕ → List (List Char)
  | [], _, _ => []
  | t :: rest, i, a => (if i = a then [t] else []) ++ takeActive rest (i + 1) a

/-- Total word count of a page list. -/
def sumWords (pages : List (List (List WordData))) : ℕ :=
  (pages.map fun p => p.flatten.length).sum

/-- Outcome of the external Google TTS call inside
`TTSManager.generate_audio`: either a written audio file whose measured
duration is `dur`, or a raised exception. -/
inductive TTSOutcome
  | ok (dur : ℚ)
  | err
  deriving DecidableEq

/-- `estimated_dur = max(1.0, (word_count / avg_wpm) * 60)`. -/
def estimatedDur (avg_wpm : ℕ) (wc : ℕ) : ℚ :=
  max 1 (((wc : ℚ) / (avg_wpm : ℚ)) * 60)

/-- `TTSManager.generate_audio`: returns `(filepath, duration)`, with the
file abstracted to `Option Unit`.  `clean` stands for
`ContentManager.clean_text_for_tts` and `svc` for the external TTS call;
`mock` is `config.mock_tts`. -/
def generate_audio (avg_wpm : ℕ) (mock : Bool) (svc : TTSOutcome)
    (clean : List Char → List Char) (text : List Char) : Option Unit × ℚ :=
  let spoken := clean text
  let wc := (pySplit spoken).length
  let est := estimatedDur avg_wpm wc
  if mock then (none, est)
  else
    match svc with
    | .ok dur => (some (), dur)
    | .err => (none, est)

/-- Duration contributed to the audio track by `VideoPipeline._add_audio_clip`:
mock silence is `AudioArrayClip(np.zeros((int(44100*duration), 2)), fps=44100)`,
whose duration is `int(44100*duration) / 44100`; durations are non-negative,
so Python's truncating `int` is the floor. -/
def addAudioClipDuration (file : Option Unit) (dur : ℚ) : ℚ :=
  match file with
  | none => ((⌊(44100 : ℚ) * dur⌋ : ℤ) : ℚ) / 44100
  | some _ => dur

/-- Python `not sentence.strip()` (true exactly when the sentence is all
whitespace). -/
def pyStripEmpty (s : List Char) : Bool := s.all Char.isWhitespace

/-- Duration of the output of `VideoEngine.assemble_final_video`:
`full_audio = concatenate_audioclips(audio_clips)` has the sum of the clip
durations, background music and video are cut or looped to the same length,
and the final composite gets `.with_duration(total_duration)`. -/
def assembleFinalDuration (audioDurs : List ℚ) : ℚ := audioDurs.sum

/-- The audio-clip durations collected by `VideoPipeline.run` with mock TTS
at the default `avg_wpm = 180`: the title clip, then one clip per body
sentence that survives `if not sentence.strip(): continue`. -/
def runAudioDurationsMock (clean : List Char → List Char)
    (title : List Char) (body : List (List Char)) : List ℚ :=
  let g := fun t : List Char =>
    addAudioClipDuration (generate_audio 180 true TTSOutcome.err clean t).1
      (generate_audio 180 true TTSOutcome.err clean t).2
  g title :: (body.filter fun s => !pyStripEmpty s).map g

/-- Final video duration produced by `VideoPipeline.run` with mock TTS. -/
def runFinalDurationMock (clean : List Char → List Char)
    (title : List Char) (body : List (List Char)) : ℚ :=
  assembleFinalDuration (runAudioDurationsMock clean title body)

/-- The body-loop video segments of `VideoPipeline.run`: sentences failing
`sentence.strip()` are skipped, and `if vid_seg:` drops `None` karaoke
results. -/
def videoSegments (measure : List Char → ℤ × ℤ) (audioDur : List Char → ℚ)
    (sentences : List (List Char)) : List (List Frame) :=
  sentences.filterMap fun s =>
    if pyStripEmpty s then none
    else create_karaoke_clip measure s (audioDur s)

/-! Concrete inputs used by the witnesses and counterexamples. -/

/-- A concrete one-word line of the given extra width. -/
def exLine (n : ℤ) : List WordData := [⟨[Char.ofNat 97], 100 + n, 10⟩]

def exLines5 : List (List WordData) :=
  [exLine 1, exLine 2, exLine 3, exLine 4, exLine 5]

def exWide : WordData := ⟨[Char.ofNat 97], 1000, 10⟩

def exNarrow : WordData := ⟨[Char.ofNat 98], 100, 10⟩

def exW1 : WordData := ⟨[Char.ofNat 97], 900, 10⟩

def exW2 : WordData := ⟨[Char.ofNat 98], 800, 10⟩

def exW3 : WordData := ⟨[Char.ofNat 99], 100, 10⟩

/-- A concrete two-word, one-line page with 100-pixel-wide words. -/
def exPage : List (List WordData) :=
  [[⟨[Char.ofNat 104, Char.ofNat 105], 100, 20⟩,
    ⟨[Char.ofNat 97], 100, 20⟩]]

/-- The sentence "hi a". -/
def exSentence : List Char :=
  [Char.ofNat 104, Char.ofNat 105, Char.ofNat 32, Char.ofNat 97]

/-- A constant measurer standing in for `TextClip`. -/
def exMeasure : List Char → ℤ × ℤ := fun _ => (100, 20)

/-- A sentence consisting of a single blank. -/
def blankSentence : List Char := [Char.ofNat 32]

/-- A title of 300 one-letter words. -/
def longTitle : List Char :=
  (List.replicate 300 [Char.ofNat 97, Char.ofNat 32]).flatten

/-! Basic facts about the splitter and the timing model. -/

theorem pySplitAux_mem_ne_nil :
    ∀ (cs : List Char) (acc : List Char), ∀ w ∈ pySplitAux cs acc, w ≠ [] := by
  intro cs
  induction cs with
  | nil =>
    intro acc w hw
    by_cases h : acc = []
    · simp [pySplitAux, h] at hw
    · simp [pySplitAux, h] at hw
      subst hw
      simpa using h
  | cons c cs ih =>
    intro acc w hw
    by_cases hws : c.isWhitespace
    · by_cases h : acc = []
      · simp [pySplitAux, hws, h] at hw
        exact ih [] w hw
      · simp only [pySplitAux, hws, if_true, h, if_false, List.mem_cons] at hw
        rcases hw with hw | hw
        · subst hw; simpa using h
        · exact ih [] w hw
    · simp only [pySplitAux, hws, if_false] at hw
      exact ih (c :: acc) w hw

theorem pySplit_mem_ne_nil (s : List Char) : ∀ w ∈ pySplit s, w ≠ [] :=
  pySplitAux_mem_ne_nil s []

theorem totalChars_pos (words : List (List Char)) (hne : words ≠ [])
    (h : ∀ w ∈ words, w ≠ []) : 0 < totalChars words := by
  cases words with
  | nil => exact absurd rfl hne
  | cons w rest =>
    have hw : w ≠ [] := h w (List.mem_cons_self w rest)
    have : 0 < w.length := List.length_pos.2 hw
    simp only [totalChars, List.map_cons, List.sum_cons]
    omega

theorem wordDurations_sum (words : List (List Char)) (d : ℚ)
    (h : 0 < totalChars words) : (wordDurations words d).sum = d := by
  have hT : ((totalChars words : ℚ)) ≠ 0 := by
    exact_mod_cast Nat.pos_iff_ne_zero.1 h
  unfold wordDurations
  have step :
      (words.map fun w => ((w.length : ℚ) / (totalChars words : ℚ)) * d)
        = words.map fun w => (w.length : ℚ) * (d / (totalChars words : ℚ)) := by
    apply List.map_congr_left
    intro w _
    field_simp
  rw [step, List.sum_map_mul_right]
  have hcast : ((words.map fun w => ((w.length : ℚ))).sum)
      = ((totalChars words : ℚ)) := by
    rw [totalChars, Nat.cast_list_sum, List.map_map]
    rfl
  rw [hcast]
  field_simp

/-! Facts about the greedy layout. -/

theorem layoutAux_flatten :
    ∀ (rest cur : List WordData) (cw : ℤ),
      (layoutAux rest cur cw).flatten = cur ++ rest := by
  intro rest
  induction rest with
  | nil =>
    intro cur cw
    by_cases h : cur = [] <;> simp [layoutAux, h]
  | cons d rest ih =>
    intro cur cw
    by_cases h : cw + d.w > 900
    · simp [layoutAux, h, ih]
    · simp [layoutAux, h, ih]

theorem layout_flatten (ws : List WordData) : (layout ws).flatten = ws := by
  simpa using layoutAux_flatten ws [] 0

theorem chunk2_flatten {α : Type} : ∀ ls : List α, (chunk2 ls).flatten = ls
  | [] => rfl
  | [a] => rfl
  | a :: b :: rest => by simp [chunk2, chunk2_flatten rest]

theorem chunk2_mem_length {α : Type} :
    ∀ (ls : List α) (p : List α), p ∈ chunk2 ls → p ≠ [] ∧ p.length ≤ 2
  | [], p, h => by simp [chunk2] at h
  | [a], p, h => by
    simp only [chunk2, List.mem_singleton] at h
    subst h; simp
  | a :: b :: rest, p, h => by
    simp only [chunk2, List.mem_cons] at h
    rcases h with h | h
    · subst h; simp
    · exact chunk2_mem_length rest p h

theorem chunk2_dropLast_length {α : Type} :
    ∀ (ls : List α) (p : List α), p ∈ (chunk2 ls).dropLast → p.length = 2
  | [], p, h => by simp [chunk2] at h
  | [a], p, h => by simp [chunk2] at h
  | a :: b :: rest, p, h => by
    cases hr : chunk2 rest with
    | nil => simp [chunk2, hr] at h
    | cons q qs =>
      rw [chunk2, hr, List.dropLast_cons₂, ← hr] at h
      rcases List.mem_cons.1 h with h | h
      · subst h; rfl
      · exact chunk2_dropLast_length rest p h

/-- C5: pagination groups consecutive lines into pages of exactly 2 lines,
only the last page possibly holding 1; the pages partition all lines in
their original order and no line lands in two pages. -/
theorem pagination_partitions (ls : List (List WordData)) :
    (chunk2 ls).flatten = ls
      ∧ (∀ p ∈ chunk2 ls, p ≠ [] ∧ p.length ≤ 2)
      ∧ (∀ p ∈ (chunk2 ls).dropLast, p.length = 2) :=
  ⟨chunk2_flatten ls, fun p hp => chunk2_mem_length ls p hp,
    fun p hp => chunk2_dropLast_length ls p hp⟩

theorem pagination_partitions_witness :
    (chunk2 exLines5).flatten = exLines5
      ∧ (exLine 5 :: []) ≠ ([] : List (List WordData))
        ∧ (exLine 5 :: []).length ≤ 2
      ∧ (exLine 1 :: exLine 2 :: []).length = 2 :=
  ⟨(pagination_partitions exLines5).1,
    ((pagination_partitions exLines5).2.1 (exLine 5 :: []) (by decide)).1,
    ((pagination_partitions exLines5).2.1 (exLine 5 :: []) (by decide)).2,
    (pagination_partitions exLines5).2.2 (exLine 1 :: exLine 2 :: []) (by decide)⟩

theorem layoutAux_ne_nil :
    ∀ (rest cur : List WordData) (cw : ℤ), cur ≠ [] →
      ∀ line ∈ layoutAux rest cur cw, line ≠ [] := by
  intro rest
  induction rest with
  | nil =>
    intro cur cw hc line hl
    simp only [layoutAux, hc, if_false, List.mem_singleton] at hl
    subst hl; exact hc
  | cons d rest ih =>
    intro cur cw hc line hl
    by_cases h : cw + d.w > 900
    · simp only [layoutAux, h, if_true, List.mem_cons] at hl
      rcases hl with hl | hl
      · subst hl; exact hc
      · exact ih [d] d.w (by simp) line hl
    · simp only [layoutAux, h, if_false] at hl
      exact ih (cur ++ [d]) (cw + d.w + 20) (by simp) line hl

/-- C10: when the first word is measured strictly wider than 900 pixels the
wrap check fires on the still-empty current line, so the emitted line list
begins with an empty line; when the first word fits, every emitted line is
non-empty. -/
theorem first_word_layout (d : WordData) (ws : List WordData) :
    (900 < d.w → ∃ rest, layout (d :: ws) = [] :: rest)
      ∧ (d.w ≤ 900 → ∀ line ∈ layout (d :: ws), line ≠ []) := by
  constructor
  · intro h
    refine ⟨layoutAux ws [d] d.w, ?_⟩
    have hgt : (0 : ℤ) + d.w > 900 := by omega
    show layoutAux (d :: ws) [] 0 = _
    simp only [layoutAux]
    rw [if_pos hgt]
  · intro h line hl
    have hng : ¬((0 : ℤ) + d.w > 900) := by omega
    have hl' : line ∈ layoutAux ws ([] ++ [d]) (0 + d.w + 20) := by
      have : layout (d :: ws) = layoutAux ws ([] ++ [d]) (0 + d.w + 20) := by
        show layoutAux (d :: ws) [] 0 = _
        simp only [layoutAux]
        rw [if_neg hng]
      rwa [this] at hl
    exact layoutAux_ne_nil ws ([] ++ [d]) (0 + d.w + 20) (by simp) line hl'

theorem first_word_layout_witness :
    (∃ rest, layout [exWide] = [] :: rest)
      ∧ [exNarrow] ≠ ([] : List WordData) :=
  ⟨(first_word_layout exWide []).1 (by decide),
    (first_word_layout exNarrow []).2 (by decide) [exNarrow] (by decide)⟩

/-- C4 counterexample: on measured widths 900, 800, 100 the layout emits
the two-word line `[exW2, exW3]` whose rendered width is
`800 + 100 + 20 = 920 > 900`, refuting the claimed 900-pixel bound for
multi-word lines. -/
theorem line_width_counterexample :
    [exW2, exW3] ∈ layout [exW1, exW2, exW3]
      ∧ ([exW2, exW3] : List WordData).length = 2
      ∧ 900 < lineWidth [exW2, exW3] := by
  decide

theorem lineWidth_append_single (cur : List WordData) (d : WordData) :
    lineWidth (cur ++ [d]) = lineWidth cur + d.w + 20 := by
  simp only [lineWidth, List.map_append, List.sum_append, List.length_append,
    List.map_cons, List.map_nil, List.sum_cons, List.sum_nil, List.length_cons,
    List.length_nil]
  push_cast
  ring

theorem layoutAux_width_bound :
    ∀ (rest cur : List WordData) (cw : ℤ),
      lineWidth cur ≤ cw → (2 ≤ cur.length → lineWidth cur ≤ 920) →
      ∀ line ∈ layoutAux rest cur cw, 2 ≤ line.length → lineWidth line ≤ 920 := by
  intro rest
  induction rest with
  | nil =>
    intro cur cw _ h2 line hl hlen
    by_cases h : cur = []
    · simp [layoutAux, h] at hl
    · simp only [layoutAux, h, if_false, List.mem_singleton] at hl
      subst hl; exact h2 hlen
  | cons d rest ih =>
    intro cur cw h1 h2 line hl hlen
    by_cases h : cw + d.w > 900
    · simp only [layoutAux, h, if_true, List.mem_cons] at hl
      rcases hl with hl | hl
      · subst hl; exact h2 hlen
      · refine ih [d] d.w (by simp [lineWidth]) ?_ line hl hlen
        intro habs
        simp at habs
    · simp only [layoutAux, h, if_false] at hl
      have hle : cw + d.w ≤ 900 := by omega
      refine ih (cur ++ [d]) (cw + d.w + 20) ?_ ?_ line hl hlen
      · rw [lineWidth_append_single]; omega
      · intro _
        rw [lineWidth_append_single]; omega

theorem layoutAux_wide_singleton :
    ∀ (rest cur : List WordData) (cw : ℤ),
      (∀ x ∈ rest, 0 ≤ x.w) → (∀ x ∈ cur, 0 ≤ x.w) →
      (cur.map WordData.w).sum ≤ cw →
      (∀ d ∈ cur, 900 < d.w → cur = [d]) →
      ∀ line ∈ layoutAux rest cur cw, ∀ d ∈ line, 900 < d.w → line = [d] := by
  intro rest
  induction rest with
  | nil =>
    intro cur cw _ _ _ hsing line hl
    by_cases h : cur = []
    · simp [layoutAux, h] at hl
    · simp only [layoutAux, h, if_false, List.mem_singleton] at hl
      subst hl; exact hsing
  | cons d rest ih =>
    intro cur cw hrest hcur hsum hsing line hl
    have hd0 : 0 ≤ d.w := hrest d (List.mem_cons_self d rest)
    have hrest' : ∀ x ∈ rest, 0 ≤ x.w := fun x hx =>
      hrest x (List.mem_cons_of_mem d hx)
    by_cases h : cw + d.w > 900
    · simp only [layoutAux, h, if_true, List.mem_cons] at hl
      rcases hl with hl | hl
      · subst hl; exact hsing
      · refine ih [d] d.w hrest' ?_ (by simp) ?_ line hl
        · intro x hx
          rcases List.mem_singleton.1 hx with rfl
          exact hd0
        · intro e he _
          rcases List.mem_singleton.1 he with rfl
          rfl
    · simp only [layoutAux, h, if_false] at hl
      have hle : cw + d.w ≤ 900 := by omega
      have hsum0 : 0 ≤ (cur.map WordData.w).sum :=
        List.sum_nonneg (by
          intro x hx
          rcases List.mem_map.1 hx with ⟨y, hy, rfl⟩
          exact hcur y hy)
      refine ih (cur ++ [d]) (cw + d.w + 20) hrest' ?_ ?_ ?_ line hl
      · intro x hx
        rcases List.mem_append.1 hx with hx | hx
        · exact hcur x hx
        · rcases List.mem_singleton.1 hx with rfl; exact hd0
      · simp only [List.map_append, List.sum_append, List.map_cons,
          List.map_nil, List.sum_cons, List.sum_nil]
        omega
      · intro e he hwide
        rcases List.mem_append.1 he with he | he
        · have hc : cur = [e] := hsing e he hwide
          have : (cur.map WordData.w).sum = e.w := by simp [hc]
          omega
        · rcases List.mem_singleton.1 he with rfl
          omega

/-- C4 amended: the layout never splits or drops a word, every emitted line
of at least two words has rendered width at most 920 = max_width + spacing
(not 900 as claimed), and, for non-negative measured widths, a word wider
than 900 always ends up alone on its line (accepted, no error). -/
theorem line_width_bound (ws : List WordData) :
    (layout ws).flatten = ws
      ∧ (∀ line ∈ layout ws, 2 ≤ line.length → lineWidth line ≤ 920)
      ∧ ((∀ x ∈ ws, 0 ≤ x.w) →
          ∀ line ∈ layout ws, ∀ d ∈ line, 900 < d.w → line = [d]) := by
  refine ⟨layout_flatten ws, ?_, ?_⟩
  · intro line hl
    exact layoutAux_width_bound ws [] 0 (by simp [lineWidth]) (by simp)
      line hl
  · intro hpos line hl
    exact layoutAux_wide_singleton ws [] 0 hpos (by simp) (by simp) (by simp)
      line hl

theorem line_width_bound_witness :
    (layout [exW1, exW2, exW3]).flatten = [exW1, exW2, exW3]
      ∧ lineWidth [exW2, exW3] ≤ 920
      ∧ ([exWide] : List WordData) = [exWide] :=
  ⟨(line_width_bound [exW1, exW2, exW3]).1,
    (line_width_bound [exW1, exW2, exW3]).2.1 [exW2, exW3] (by decide) (by decide),
    (line_width_bound [exWide]).2.2 (by decide) [exWide] (by decide) exWide
      (by decide) (by decide)⟩

/-! Position stability: the coordinates produced for a page do not depend
on the active index. -/

theorem buildLine_strip (a : ℕ) (y : ℚ) :
    ∀ (l : List WordData) (x : ℚ) (idx : ℕ),
      (buildLine a y l x idx).map stripPos = lineStrip y l x := by
  intro l
  induction l with
  | nil => intro x idx; rfl
  | cons d rest ih =>
    intro x idx
    simp [buildLine, lineStrip, stripPos, ih]

theorem buildLines_strip (a : ℕ) (lh : ℤ) :
    ∀ (ls : List (List WordData)) (y : ℚ) (idx : ℕ),
      (buildLines a lh ls y idx).map stripPos = linesStrip lh ls y := by
  intro ls
  induction ls with
  | nil => intro y idx; rfl
  | cons line rest ih =>
    intro y idx
    simp [buildLines, linesStrip, List.map_append, buildLine_strip, ih]

theorem buildPage_strip (page : List (List WordData)) (a : ℕ) :
    (buildPage page a).map stripPos
      = linesStrip (lineHeight page) page (startY page) :=
  buildLines_strip a (lineHeight page) page (startY page) 0

/-- C2: any two frames emitted for the same page place every word of the
page at identical coordinates with identical text; the frames can differ
only in which word carries the active style. -/
theorem page_positions_stable (durs : List ℚ) (off : ℕ)
    (page : List (List WordData)) (f g : Frame)
    (hf : f ∈ pageFrames durs off page) (hg : g ∈ pageFrames durs off page) :
    f.words.map stripPos = g.words.map stripPos := by
  rcases List.mem_map.1 hf with ⟨i, _, rfl⟩
  rcases List.mem_map.1 hg with ⟨j, _, rfl⟩
  show (buildPage page i).map stripPos = (buildPage page j).map stripPos
  rw [buildPage_strip, buildPage_strip]

theorem page_positions_stable_witness :
    (Frame.mk (([1, 1] : List ℚ).getD (0 + 0) 0) (buildPage exPage 0)
        (0 + 0)).words.map stripPos
      = (Frame.mk (([1, 1] : List ℚ).getD (0 + 1) 0) (buildPage exPage 1)
          (0 + 1)).words.map stripPos := by
  apply page_positions_stable [1, 1] 0 exPage
  · exact List.mem_map.2 ⟨0, by decide, rfl⟩
  · exact List.mem_map.2 ⟨1, by decide, rfl⟩

/-! Active-word accounting. -/

theorem takeActive_append :
    ∀ (ts us : List (List Char)) (i a : ℕ),
      takeActive (ts ++ us) i a
        = takeActive ts i a ++ takeActive us (i + ts.length) a := by
  intro ts
  induction ts with
  | nil => intro us i a; simp [takeActive]
  | cons t rest ih =>
    intro us i a
    simp only [List.cons_append, takeActive, List.length_cons, List.append_eq]
    rw [ih us (i + 1) a, List.append_assoc]
    have : i + 1 + rest.length = i + (rest.length + 1) := by omega
    rw [this]

theorem takeActive_of_lt :
    ∀ (ts : List (List Char)) (i a : ℕ), a < i → takeActive ts i a = [] := by
  intro ts
  induction ts with
  | nil => intro i a _; rfl
  | cons t rest ih =>
    intro i a h
    have hne : ¬(i = a) := by omega
    simp [takeActive, hne, ih (i + 1) a (by omega)]

theorem takeActive_get :
    ∀ (ts : List (List Char)) (k : ℕ) (h : k < ts.length) (i : ℕ),
      takeActive ts i (i + k) = [ts.get ⟨k, h⟩] := by
  intro ts
  induction ts with
  | nil => intro k h; simp at h
  | cons t rest ih =>
    intro k h i
    cases k with
    | zero =>
      simp [takeActive, takeActive_of_lt rest (i + 1) i (by omega)]
    | succ k' =>
      have harg : i + (k' + 1) = (i + 1) + k' := by omega
      have hne : ¬(i = (i + 1) + k') := by omega
      rw [harg]
      simp only [takeActive, hne, if_false, List.nil_append]
      rw [ih k' (by simpa using h) (i + 1)]
      simp

theorem activeTexts_append (a b : List PosWord) :
    activeTexts (a ++ b) = activeTexts a ++ activeTexts b := by
  simp [activeTexts, List.filter_append]

theorem activeTexts_cons (p : PosWord) (ps : List PosWord) :
    activeTexts (p :: ps)
      = (if p.active then [p.text] else []) ++ activeTexts ps := by
  by_cases h : p.active <;> simp [activeTexts, List.filter_cons, h]

theorem buildLine_activeTexts (a : ℕ) (y : ℚ) :
    ∀ (l : List WordData) (x : ℚ) (idx : ℕ),
      activeTexts (buildLine a y l x idx)
        = takeActive (l.map WordData.text) idx a := by
  intro l
  induction l with
  | nil => intro x idx; rfl
  | cons d rest ih =>
    intro x idx
    simp only [buildLine, activeTexts_cons, List.map_cons, takeActive]
    rw [ih]
    congr 1
    by_cases h : idx = a
    · simp [h]
    · have hb : (idx == a) = false := by simpa using h
      simp [h, hb]

theorem buildLines_activeTexts (a : ℕ) (lh : ℤ) :
    ∀ (ls : List (List WordData)) (y : ℚ) (idx : ℕ),
      activeTexts (buildLines a lh ls y idx)
        = takeActive (ls.flatten.map WordData.text) idx a := by
  intro ls
  induction ls with
  | nil => intro y idx; rfl
  | cons line rest ih =>
    intro y idx
    simp only [buildLines, activeTexts_append, buildLine_activeTexts, ih,
      List.flatten_cons, List.map_append, takeActive_append,
      List.length_map]

theorem buildPage_activeTexts (page : List (List WordData)) (a : ℕ) :
    activeTexts (buildPage page a)
      = takeActive (page.flatten.map WordData.text) 0 a :=
  buildLines_activeTexts a (lineHeight page) page (startY page) 0

theorem range_map_takeActive (ts : List (List Char)) :
    (List.range ts.length).map (fun a => takeActive ts 0 a)
      = ts.map fun t => [t] := by
  apply List.ext_get
  · simp
  · intro k h1 h2
    have hk : k < ts.length := by simpa using h1
    have e1 : ((List.range ts.length).map fun a => takeActive ts 0 a).get
        ⟨k, h1⟩ = takeActive ts 0 k := by
      simp
    have e2 : (ts.map fun t => [t]).get ⟨k, h2⟩ = [ts.get ⟨k, hk⟩] := by
      simp
    rw [e1, e2]
    have := takeActive_get ts k hk 0
    simpa using this

/-! The frame sequence: counters, durations, lengths. -/

theorem framesAux_map_gidx (durs : List ℚ) :
    ∀ (pages : List (List (List WordData))) (off : ℕ),
      (framesAux durs pages off).map Frame.gidx
        = (List.range (sumWords pages)).map (off + ·) := by
  intro pages
  induction pages with
  | nil => intro off; rfl
  | cons page rest ih =>
    intro off
    have hsum : sumWords (page :: rest)
        = page.flatten.length + sumWords rest := by
      simp [sumWords]
    have hstep : framesAux durs (page :: rest) off
        = pageFrames durs off page
          ++ framesAux durs rest (off + page.flatten.length) := rfl
    rw [hstep, List.map_append, ih, hsum, List.range_add, List.map_append]
    congr 1
    · simp only [pageFrames, List.map_map]
      exact List.map_congr_left fun x _ => rfl
    · rw [List.map_map]
      refine List.map_congr_left fun x _ => ?_
      simp only [Function.comp_apply]
      omega

theorem framesAux_map_duration (durs : List ℚ) :
    ∀ (pages : List (List (List WordData))) (off : ℕ),
      (framesAux durs pages off).map Frame.duration
        = (List.range (sumWords pages)).map fun k => durs.getD (off + k) 0 := by
  intro pages
  induction pages with
  | nil => intro off; rfl
  | cons page rest ih =>
    intro off
    have hsum : sumWords (page :: rest)
        = page.flatten.length + sumWords rest := by
      simp [sumWords]
    have hstep : framesAux durs (page :: rest) off
        = pageFrames durs off page
          ++ framesAux durs rest (off + page.flatten.length) := rfl
    rw [hstep, List.map_append, ih, hsum, List.range_add, List.map_append]
    congr 1
    · simp only [pageFrames, List.map_map]
      exact List.map_congr_left fun x _ => rfl
    · rw [List.map_map]
      refine List.map_congr_left fun x _ => ?_
      simp only [Function.comp_apply]
      rw [Nat.add_assoc]

theorem getD_range_self (l : List ℚ) :
    (List.range l.length).map (fun k => l.getD k 0) = l := by
  induction l with
  | nil => rfl
  | cons q rest ih =>
    rw [List.length_cons, List.range_succ_eq_map, List.map_cons,
      List.map_map]
    have hfun : ((fun k => (q :: rest).getD k 0) ∘ Nat.succ)
        = fun k => rest.getD k 0 := by
      funext k; rfl
    rw [hfun, ih]
    rfl

theorem framesAux_map_activeTexts (durs : List ℚ) :
    ∀ (pages : List (List (List WordData))) (off : ℕ),
      (framesAux durs pages off).map (fun f => activeTexts f.words)
        = (pages.flatten.flatten.map WordData.text).map fun t => [t] := by
  intro pages
  induction pages with
  | nil => intro off; rfl
  | cons page rest ih =>
    intro off
    have hstep : framesAux durs (page :: rest) off
        = pageFrames durs off page
          ++ framesAux durs rest (off + page.flatten.length) := rfl
    have hflat : ((page :: rest).flatten.flatten.map WordData.text)
        = (page.flatten.map WordData.text)
          ++ (rest.flatten.flatten.map WordData.text) := by
      simp
    rw [hstep, List.map_append, ih, hflat, List.map_append]
    congr 1
    simp only [pageFrames, List.map_map]
    have hcomp : ((fun f => activeTexts f.words) ∘ fun i =>
        Frame.mk (durs.getD (off + i) 0) (buildPage page i) (off + i))
        = fun i => takeActive (page.flatten.map WordData.text) 0 i := by
      funext i
      simp [Function.comp, buildPage_activeTexts]
    rw [hcomp]
    have hlen : page.flatten.length
        = (page.flatten.map WordData.text).length :=
      (List.length_map page.flatten WordData.text).symm
    rw [hlen, range_map_takeActive, List.map_map]

theorem sumWords_eq :
    ∀ pages : List (List (List WordData)),
      sumWords pages = pages.flatten.flatten.length := by
  intro pages
  induction pages with
  | nil => rfl
  | cons p rest ih =>
    simp only [sumWords, List.map_cons, List.sum_cons, List.flatten_cons,
      List.flatten_append, List.length_append]
    rw [← ih]
    rfl

/-! Unfolding `create_karaoke_clip`. -/

theorem create_none (m : List Char → ℤ × ℤ) (s : List Char) (d : ℚ)
    (h : pySplit s = []) : create_karaoke_clip m s d = none := by
  simp [create_karaoke_clip, h]

theorem create_karaoke_clip_eq (m : List Char → ℤ × ℤ) (s : List Char)
    (d : ℚ) (h : pySplit s ≠ []) :
    create_karaoke_clip m s d
      = some (allFrames (wordDurations (pySplit s) d)
          (chunk2 (layout ((pySplit s).map fun t =>
            WordData.mk t (m t).1 (m t).2)))) := by
  simp [create_karaoke_clip, h]

theorem create_isSome (m : List Char → ℤ × ℤ) (s : List Char) (d : ℚ)
    (h : pySplit s ≠ []) :
    create_karaoke_clip m s d
      = some ((create_karaoke_clip m s d).getD []) := by
  rw [create_karaoke_clip_eq m s d h]
  rfl

/-- C3: one frame is emitted per whitespace-delimited word; each frame
marks exactly one word active; the global index of the active word starts
at 0 and advances by one per frame, covering every word once in order. -/
theorem active_word_advances (m : List Char → ℤ × ℤ) (s : List Char)
    (d : ℚ) (frames : List Frame)
    (h : create_karaoke_clip m s d = some frames) :
    frames.length = (pySplit s).length
      ∧ frames.map Frame.gidx = List.range (pySplit s).length
      ∧ (∀ f ∈ frames, (f.words.filter PosWord.active).length = 1)
      ∧ frames.map (fun f => (f.words.filter PosWord.active).map PosWord.text)
          = (pySplit s).map fun w => [w] := by
  by_cases hw : pySplit s = []
  · rw [create_none m s d hw] at h
    cases h
  · rw [create_karaoke_clip_eq m s d hw] at h
    have hf : frames = allFrames (wordDurations (pySplit s) d)
        (chunk2 (layout ((pySplit s).map fun t =>
          WordData.mk t (m t).1 (m t).2))) := (Option.some.inj h).symm
    subst hf
    set ws := (pySplit s).map fun t => WordData.mk t (m t).1 (m t).2
      with hws
    set durs := wordDurations (pySplit s) d with hdurs
    set pages := chunk2 (layout ws) with hpages
    have hflat : pages.flatten.flatten = ws := by
      rw [hpages, chunk2_flatten, layout_flatten]
    have htext : pages.flatten.flatten.map WordData.text = pySplit s := by
      rw [hflat, hws, List.map_map]
      have hid : (WordData.text ∘ fun t => WordData.mk t (m t).1 (m t).2)
          = id := by
        funext t; rfl
      rw [hid, List.map_id]
    have hsum : sumWords pages = (pySplit s).length := by
      rw [sumWords_eq, hflat, hws, List.length_map]
    have hgidx : (allFrames durs pages).map Frame.gidx
        = List.range (pySplit s).length := by
      show (framesAux durs pages 0).map Frame.gidx = _
      rw [framesAux_map_gidx, hsum]
      have hz : (fun x : ℕ => 0 + x) = fun x : ℕ => x := by
        funext x; omega
      rw [hz]
      exact List.map_id' (List.range (pySplit s).length)
    have hactive : (allFrames durs pages).map (fun f => activeTexts f.words)
        = (pySplit s).map fun w => [w] := by
      show (framesAux durs pages 0).map (fun f => activeTexts f.words) = _
      rw [framesAux_map_activeTexts, htext]
    have hcnv : (fun f : Frame =>
        (f.words.filter PosWord.active).map PosWord.text)
        = fun f : Frame => activeTexts f.words := rfl
    refine ⟨?_, hgidx, ?_, by rw [hcnv]; exact hactive⟩
    · have hlen := congrArg List.length hgidx
      simpa using hlen
    · intro f hfmem
      have hmem : activeTexts f.words
          ∈ (allFrames durs pages).map (fun f => activeTexts f.words) :=
        List.mem_map_of_mem _ hfmem
      rw [hactive] at hmem
      rcases List.mem_map.1 hmem with ⟨w, _, hw2⟩
      have hlm : (f.words.filter PosWord.active).length
          = (activeTexts f.words).length := by
        simp [activeTexts]
      rw [hlm, ← hw2]
      rfl

theorem active_word_advances_witness :
    ((create_karaoke_clip exMeasure exSentence 6).getD []).length
        = (pySplit exSentence).length
      ∧ ((create_karaoke_clip exMeasure exSentence 6).getD []).map Frame.gidx
          = List.range (pySplit exSentence).length
      ∧ ((create_karaoke_clip exMeasure exSentence 6).getD []).map
            (fun f => (f.words.filter PosWord.active).map PosWord.text)
          = (pySplit exSentence).map fun w => [w] := by
  have h := active_word_advances exMeasure exSentence 6
    ((create_karaoke_clip exMeasure exSentence 6).getD [])
    (create_isSome exMeasure exSentence 6 (by decide))
  exact ⟨h.1, h.2.1, h.2.2.2⟩

/-- C1: the per-word durations are an exact proportional split of the
spoken duration — over rational arithmetic they sum to exactly `d` — and
since every frame's duration is its word's duration, the frame durations
of a sentence's clip also sum to exactly `d`. -/
theorem durations_sum_exact (m : List Char → ℤ × ℤ) (s : List Char) (d : ℚ)
    (hw : pySplit s ≠ []) (hd : 0 < d) :
    (wordDurations (pySplit s) d).sum = d
      ∧ ∀ frames, create_karaoke_clip m s d = some frames →
          (frames.map Frame.duration).sum = d := by
  have hT : 0 < totalChars (pySplit s) :=
    totalChars_pos _ hw (pySplit_mem_ne_nil s)
  have hsumd : (wordDurations (pySplit s) d).sum = d :=
    wordDurations_sum _ d hT
  refine ⟨hsumd, ?_⟩
  intro frames h
  rw [create_karaoke_clip_eq m s d hw] at h
  have hf : frames = allFrames (wordDurations (pySplit s) d)
      (chunk2 (layout ((pySplit s).map fun t =>
        WordData.mk t (m t).1 (m t).2))) := (Option.some.inj h).symm
  subst hf
  set ws := (pySplit s).map fun t => WordData.mk t (m t).1 (m t).2 with hws
  set durs := wordDurations (pySplit s) d with hdurs
  set pages := chunk2 (layout ws) with hpages
  have hflat : pages.flatten.flatten = ws := by
    rw [hpages, chunk2_flatten, layout_flatten]
  have hlen1 : sumWords pages = (pySplit s).length := by
    rw [sumWords_eq, hflat, hws, List.length_map]
  have hlen2 : durs.length = (pySplit s).length := by
    rw [hdurs, wordDurations, List.length_map]
  have hdur : (allFrames durs pages).map Frame.duration = durs := by
    show (framesAux durs pages 0).map Frame.duration = durs
    rw [framesAux_map_duration, hlen1, ← hlen2]
    have hz : (fun k => durs.getD (0 + k) 0) = fun k => durs.getD k 0 := by
      funext k
      rw [Nat.zero_add]
    rw [hz, getD_range_self]
  rw [hdur]
  exact hsumd

theorem durations_sum_exact_witness :
    (wordDurations (pySplit exSentence) 6).sum = 6
      ∧ (((create_karaoke_clip exMeasure exSentence 6).getD []).map
          Frame.duration).sum = 6 :=
  ⟨(durations_sum_exact exMeasure exSentence 6 (by decide) (by norm_num)).1,
    (durations_sum_exact exMeasure exSentence 6 (by decide) (by norm_num)).2
      ((create_karaoke_clip exMeasure exSentence 6).getD [])
      (create_isSome exMeasure exSentence 6 (by decide))⟩

/-- C9: every whitespace-delimited word has length at least 1, so its
proportional duration is strictly positive whenever the total spoken
duration is. -/
theorem word_durations_pos (s : List Char) (d : ℚ) (hd : 0 < d) :
    ∀ q ∈ wordDurations (pySplit s) d, 0 < q := by
  intro q hq
  rcases List.mem_map.1 hq with ⟨w, hw, rfl⟩
  have hne : w ≠ [] := pySplit_mem_ne_nil s w hw
  have hlen : 0 < w.length := List.length_pos.2 hne
  have hT : 0 < totalChars (pySplit s) :=
    totalChars_pos _ (List.ne_nil_of_mem hw) (pySplit_mem_ne_nil s)
  have h1 : (0 : ℚ) < (w.length : ℚ) := by exact_mod_cast hlen
  have h2 : (0 : ℚ) < (totalChars (pySplit s) : ℚ) := by exact_mod_cast hT
  exact mul_pos (div_pos h1 h2) hd

theorem word_durations_pos_witness :
    0 < (((Char.ofNat 104 :: Char.ofNat 105 :: [] : List Char).length : ℚ)
        / (totalChars (pySplit exSentence) : ℚ)) * 1 :=
  word_durations_pos exSentence 1 (by norm_num) _
    (List.mem_map.2 ⟨Char.ofNat 104 :: Char.ofNat 105 :: [], by decide, rfl⟩)

/-- C6: a sentence with no whitespace-delimited words yields `None` before
the division by `total_chars` is reached (and whenever the division is
reached, `total_chars` is positive), and the pipeline body loop simply
skips such a sentence. -/
theorem empty_sentence_skipped (m : List Char → ℤ × ℤ)
    (ad : List Char → ℚ) (s : List Char) (d : ℚ)
    (pre post : List (List Char)) (h : pySplit s = []) :
    create_karaoke_clip m s d = none
      ∧ videoSegments m ad (pre ++ s :: post)
          = videoSegments m ad (pre ++ post)
      ∧ ∀ t : List Char, pySplit t ≠ [] → 0 < totalChars (pySplit t) := by
  refine ⟨create_none m s d h, ?_, ?_⟩
  · unfold videoSegments
    rw [List.filterMap_append, List.filterMap_append]
    congr 1
    rw [List.filterMap_cons]
    by_cases hs : pyStripEmpty s
    · simp [hs]
    · simp [hs, create_none m s (ad s) h]
  · intro t ht
    exact totalChars_pos (pySplit t) ht (pySplit_mem_ne_nil t)

theorem empty_sentence_skipped_witness :
    create_karaoke_clip exMeasure blankSentence 1 = none
      ∧ videoSegments exMeasure (fun _ => 1)
            ([exSentence] ++ blankSentence :: [])
          = videoSegments exMeasure (fun _ => 1) ([exSentence] ++ [])
      ∧ 0 < totalChars (pySplit exSentence) := by
  have h := empty_sentence_skipped exMeasure (fun _ => 1) blankSentence 1
    [exSentence] [] (by decide)
  exact ⟨h.1, h.2.1, h.2.2 exSentence (by decide)⟩

/-! Exactness of the mock-silence substitution. -/

theorem silence_exact (n : ℕ) :
    addAudioClipDuration none (estimatedDur 180 n) = estimatedDur 180 n := by
  unfold addAudioClipDuration estimatedDur
  rcases le_total ((n : ℚ) / (180 : ℕ) * 60) 1 with h | h
  · rw [max_eq_left h, mul_one]
    rw [show (44100 : ℚ) = ((44100 : ℤ) : ℚ) by norm_num, Int.floor_intCast]
    norm_num
  · rw [max_eq_right h]
    have h1 : (44100 : ℚ) * ((n : ℚ) / (180 : ℕ) * 60)
        = ((14700 * n : ℕ) : ℚ) := by
      push_cast
      ring
    rw [h1, Int.floor_natCast]
    push_cast
    rw [div_eq_iff (by norm_num : (44100 : ℚ) ≠ 0)]
    ring

/-- C7: with the TTS client unavailable (`mock_tts`) or the TTS call
failing, `generate_audio` returns no file together with the estimated
duration `max(1, word_count / avg_wpm * 60)` computed from the cleaned
text, and at the default 180 words per minute the silence the pipeline
substitutes has exactly that duration. -/
theorem tts_failure_fallback (clean : List Char → List Char)
    (text : List Char) (mock : Bool) (svc : TTSOutcome)
    (h : mock = true ∨ svc = TTSOutcome.err) :
    (generate_audio 180 mock svc clean text).1 = none
      ∧ (generate_audio 180 mock svc clean text).2
          = estimatedDur 180 ((pySplit (clean text)).length)
      ∧ addAudioClipDuration none
            (estimatedDur 180 ((pySplit (clean text)).length))
          = estimatedDur 180 ((pySplit (clean text)).length) := by
  have hmain : generate_audio 180 mock svc clean text
      = (none, estimatedDur 180 ((pySplit (clean text)).length)) := by
    rcases h with h | h
    · subst h
      simp [generate_audio]
    · subst h
      cases mock <;> simp [generate_audio]
  exact ⟨by rw [hmain], by rw [hmain], silence_exact _⟩

theorem tts_failure_fallback_witness :
    (generate_audio 180 true TTSOutcome.err id exSentence).1 = none
      ∧ (generate_audio 180 true TTSOutcome.err id exSentence).2
          = estimatedDur 180 ((pySplit (id exSentence)).length)
      ∧ addAudioClipDuration none
            (estimatedDur 180 ((pySplit (id exSentence)).length))
          = estimatedDur 180 ((pySplit (id exSentence)).length) :=
  tts_failure_fallback id exSentence true TTSOutcome.err (Or.inl rfl)

set_option maxRecDepth 8000 in
/-- C8 counterexample: a 300-word title alone already produces a final
video of 100 seconds under mock TTS, so no ≈59-second cap is enforced. -/
theorem final_duration_counterexample :
    runFinalDurationMock id longTitle [] = 100
      ∧ ¬(runFinalDurationMock id longTitle [] ≤ 59) := by
  have hwc : (pySplit longTitle).length = 300 := by decide
  have hrun : runFinalDurationMock id longTitle []
      = addAudioClipDuration none
          (estimatedDur 180 ((pySplit longTitle).length)) := by
    simp [runFinalDurationMock, assembleFinalDuration, runAudioDurationsMock,
      generate_audio]
  have hest : estimatedDur 180 300 = 100 := by
    unfold estimatedDur
    rw [max_eq_right (by norm_num)]
    norm_num
  have hfloor : addAudioClipDuration none (100 : ℚ) = 100 := by
    unfold addAudioClipDuration
    rw [show (44100 : ℚ) * 100 = ((4410000 : ℤ) : ℚ) by norm_num,
      Int.floor_intCast]
    norm_num
  rw [hrun, hwc, hest, hfloor]
  norm_num

/-- C8 amended: the final assembled video's duration equals the sum of the
audio clip durations — the title's estimated duration plus one estimated
duration per retained body sentence under mock TTS — with no cap applied,
so it exceeds 59 seconds whenever those estimates do. -/
theorem final_duration_uncapped (clean : List Char → List Char)
    (title : List Char) (body : List (List Char)) :
    runFinalDurationMock clean title body
      = estimatedDur 180 ((pySplit (clean title)).length)
        + ((body.filter fun s => !pyStripEmpty s).map fun s =>
            estimatedDur 180 ((pySplit (clean s)).length)).sum := by
  simp only [runFinalDurationMock, assembleFinalDuration,
    runAudioDurationsMock, generate_audio, if_true, List.sum_cons,
    silence_exact]

end RedditShort
